import Mathlib

/-!
Shallow embedding of the gormeasy migration engine (src/migrate.go,
src/start.go, src/helper.go).

The History Store (the `migrations` table) is embedded as a `List String`
of applied migration ids in insertion order.  A migration definition
carries its id together with two booleans saying whether its forward
(`Up`) and reverse (`Down`) actions succeed when invoked.  The gormigrate
library itself is not part of the repository sources, so its operations
(`Migrate`, `RollbackLast`, `RollbackTo`) are modelled from the spec's
description of the Migrator (section 4.2); everything else is translated
directly from the Go sources.
-/

namespace Gormeasy

/-- A migration definition: caller-assigned id, and whether the forward
and reverse actions succeed when executed (`src/migrate.go`,
`type Migration = gormigrate.Migration`). -/
structure Migration where
  id : String
  upOk : Bool
  downOk : Bool
deriving Repr, DecidableEq

/-- Errors surfaced by the Migrator and by the helpers. -/
inductive MErr where
  | unknownApplied
  | forwardFail (id : String)
  | reverseFail (id : String)
  | noRunMigration
  | targetNotFound (id : String)
  | targetNotApplied (id : String)
deriving Repr, DecidableEq

/-- The ids of a registry, in registry order. -/
def regIds (regs : List Migration) : List String :=
  regs.map Migration.id

/-- Modelled from the spec: strict-mode validation
(`ValidateUnknownMigrations: true` in `getMigrator`).  True when the
History Store contains an id with no matching registry definition. -/
def hasUnknown (st : List String) (regs : List Migration) : Bool :=
  st.any (fun x => !(regIds regs).contains x)

/-- Modelled from the spec: the body of `Migrate` — for each definition in
registry order not yet applied, execute the forward action and on success
insert its record; on failure abort immediately, keeping the records
inserted so far. -/
def migrateGo : List Migration → List String → Option MErr × List String
  | [], st => (none, st)
  | m :: rest, st =>
    if st.contains m.id then migrateGo rest st
    else if m.upOk then migrateGo rest (st ++ [m.id])
    else (some (MErr.forwardFail m.id), st)

/-- Modelled from the spec: `migrate()` first runs the strict unknown-id
validation, then applies pending definitions in registry order. -/
def migrate (regs : List Migration) (st : List String) :
    Option MErr × List String :=
  if hasUnknown st regs then (some MErr.unknownApplied, st)
  else migrateGo regs st

/-- Modelled from the spec: the most-recently-applied migration is the
highest-index registry entry whose id is in the History Store. -/
def lastApplied (regs : List Migration) (st : List String) :
    Option Migration :=
  regs.reverse.find? (fun m => st.contains m.id)

/-- Modelled from the spec: `rollbackLast()` validates, locates the
most-recently-applied migration, executes its reverse action and removes
its record; fails with `noRunMigration` when nothing is applied. -/
def rollbackLast (regs : List Migration) (st : List String) :
    Option MErr × List String :=
  if hasUnknown st regs then (some MErr.unknownApplied, st)
  else
    match lastApplied regs st with
    | none => (some MErr.noRunMigration, st)
    | some m =>
      if m.downOk then (none, st.filter (fun x => x ≠ m.id))
      else (some (MErr.reverseFail m.id), st)

theorem filter_ne_length_lt {a : String} {st : List String} (h : a ∈ st) :
    (st.filter (fun x => x ≠ a)).length < st.length := by
  induction st with
  | nil => simp at h
  | cons b t ih =>
    by_cases hb : b = a
    · subst hb
      simp only [List.filter_cons]
      simp only [decide_not, decide_True, Bool.not_true, ne_eq, not_true_eq_false,
        decide_False, Bool.false_eq_true, if_false, List.length_cons]
      exact Nat.lt_succ_of_le (List.length_filter_le _ _)
    · rcases List.mem_cons.mp h with h1 | h1
      · exact absurd h1.symm hb
      · simp only [List.filter_cons]
        have hpb : (decide (b ≠ a)) = true := by simp [hb]
        simp only [ne_eq, hpb, if_true, List.length_cons]
        exact Nat.succ_lt_succ (ih h1)

theorem lastApplied_mem {regs : List Migration} {st : List String} {m : Migration}
    (h : lastApplied regs st = some m) : m.id ∈ st := by
  have hfind : List.find? (fun x => st.contains x.id) regs.reverse = some m := h
  have := List.find?_some hfind
  simpa using this

theorem rollbackLast_none_length {regs : List Migration} {st st' : List String}
    (h : rollbackLast regs st = (none, st')) : st'.length < st.length := by
  unfold rollbackLast at h
  by_cases hu : hasUnknown st regs
  · simp [hu] at h
  · simp [hu] at h
    cases hfind : lastApplied regs st with
    | none => simp [hfind] at h
    | some m =>
      simp [hfind] at h
      by_cases hd : m.downOk
      · simp [hd] at h
        have hmem' : m.id ∈ st := lastApplied_mem hfind
        rw [← h]
        simpa only [ne_eq, decide_not] using filter_ne_length_lt hmem'
      · simp [hd] at h

/-- Loop of `rollbackAllMigrations` (`src/migrate.go`): repeat
`RollbackLast` until it returns `ErrNoRunMigration` (success) or any
other error (propagated). -/
def rollbackAllMigrations (regs : List Migration) (st : List String) :
    Option MErr × List String :=
  match h : rollbackLast regs st with
  | (none, st') => rollbackAllMigrations regs st'
  | (some MErr.noRunMigration, st') => (none, st')
  | (some e, st') => (some e, st')
termination_by st.length
decreasing_by exact rollbackLast_none_length h

/-- Modelled from the spec: the loop of `RollbackTo` — scan the registry
from the end; for each entry before the target (exclusive), if it is
applied, execute its reverse action and remove its record; stop at the
target.  The third component logs the ids whose reverse action was
invoked, in invocation order. -/
def rollbackToGo : List Migration → String → List String →
    Option MErr × List String × List String
  | [], _, st => (none, st, [])
  | m :: rest, target, st =>
    if m.id = target then (none, st, [])
    else if st.contains m.id then
      if m.downOk then
        let r := rollbackToGo rest target (st.filter (fun x => x ≠ m.id))
        (r.1, r.2.1, m.id :: r.2.2)
      else (some (MErr.reverseFail m.id), st, [])
    else rollbackToGo rest target st

/-- Modelled from the spec: `rollbackTo(targetId)` fails if the target is
absent from the registry or not currently applied; otherwise it rolls
back every applied migration after the target, in reverse registry
order, leaving the target itself applied. -/
def rollbackTo (regs : List Migration) (target : String) (st : List String) :
    Option MErr × List String × List String :=
  if !(regIds regs).contains target then (some (MErr.targetNotFound target), st, [])
  else if !st.contains target then (some (MErr.targetNotApplied target), st, [])
  else rollbackToGo regs.reverse target st

/-- The `getAppliedIDs` function (`src/migrate.go`): reads the rows of the
`migrations` table and builds the set of their ids (a Go map, embedded as
an insertion-ordered duplicate-free list).  On a read error it logs a
warning and returns the empty set instead of failing. -/
def getAppliedIDs (readOk : Bool) (rows : List String) : List String :=
  if !readOk then []
  else rows.foldl (fun ids x => if ids.contains x then ids else ids ++ [x]) []

/-- The `findNewMigrations` function (`src/migrate.go`): the ids present
in `after` but not in `before`. -/
def findNewMigrations (before after : List String) : List String :=
  after.filter (fun x => !before.contains x)

/-- What the diff reporter prints at the end of a successful
`runMigrateWithDiff` run. -/
inductive Report where
  | noChange
  | newIds (ids : List String)
deriving Repr, DecidableEq

/-- The `runMigrateWithDiff` function (`src/migrate.go`): snapshot the
applied ids, run `Migrate`, snapshot again, and report the diff — "no
change" when it is empty, otherwise the list of newly applied ids.  On a
migrate error the run aborts with no report. -/
def runMigrateWithDiff (regs : List Migration) (st : List String) :
    Option MErr × List String × Option Report :=
  let before := getAppliedIDs true st
  match migrate regs st with
  | (some e, st') => (some e, st', none)
  | (none, st') =>
    let after := getAppliedIDs true st'
    let diff := findNewMigrations before after
    if diff.isEmpty then (none, st', some Report.noChange)
    else (none, st', some (Report.newIds diff))

/-- What `printMigrationStatus` (`src/migrate.go`) renders. -/
inductive StatusReport where
  | schemaError
  | upToDate
  | listing (appliedGroup pendingGroup : List String)
deriving Repr, DecidableEq

/-- The `printMigrationStatus` function (`src/migrate.go`): count applied
and pending registry entries; when every entry is applied and printing is
not forced, emit the single "up to date" line; otherwise render the
Applied and Pending groups, each in registry order (a group with count 0
is not printed, embedded as the empty list). -/
def printMigrationStatus (schemaOk readOk : Bool) (regs : List Migration)
    (rows : List String) (forcePrint : Bool) : StatusReport :=
  if !schemaOk then StatusReport.schemaError
  else
    let applied := getAppliedIDs readOk rows
    let counts := regs.foldl
      (fun (c : Nat × Nat) m =>
        if applied.contains m.id then (c.1 + 1, c.2) else (c.1, c.2 + 1))
      (0, 0)
    if counts.1 = regs.length ∧ counts.2 = 0 ∧ forcePrint = false then
      StatusReport.upToDate
    else
      StatusReport.listing
        ((regs.filter (fun m => applied.contains m.id)).map Migration.id)
        ((regs.filter (fun m => !applied.contains m.id)).map Migration.id)

/-- A Go `interface{}` value passed to `DropTable`: a string table name,
the nil interface value (for which `reflect.TypeOf` returns nil, so the
`.Kind()` call panics), or a non-nil value of some other kind. -/
inductive GoVal where
  | str (s : String)
  | nilVal
  | other
deriving Repr, DecidableEq

/-- Errors returned by `DropTable`. -/
inductive DropErr where
  | notString
  | noTable (s : String)
deriving Repr, DecidableEq

/-- Outcome of the validation loop of `DropTable`: all checks passed, a
runtime panic on a nil name, or the first offending name's error. -/
inductive CheckOutcome where
  | ok
  | panicked
  | errored (e : DropErr)
deriving Repr, DecidableEq

/-- The validation loop of `DropTable` (`src/helper.go`): every name must
be a string naming an existing table; a nil name panics at the
`reflect.TypeOf(tableName).Kind()` call (reflect.TypeOf of a nil
interface value is nil); otherwise the first offending name produces the
error. -/
def dropTableCheck : List GoVal → List String → CheckOutcome
  | [], _ => CheckOutcome.ok
  | GoVal.nilVal :: _, _ => CheckOutcome.panicked
  | GoVal.other :: _, _ => CheckOutcome.errored DropErr.notString
  | GoVal.str s :: rest, tables =>
    if tables.contains s then dropTableCheck rest tables
    else CheckOutcome.errored (DropErr.noTable s)

/-- Result of a `DropTable` call: a runtime panic during validation, an
error return, or a successful drop; the table list records the database
state afterwards (unchanged except on success, since validation precedes
the single drop call). -/
inductive DropResult where
  | panicked (tables : List String)
  | errored (e : DropErr) (tables : List String)
  | dropped (tables : List String)
deriving Repr, DecidableEq

/-- The `DropTable` function (`src/helper.go`): validate every name
first; only when all checks pass are the named tables dropped (the
database's table list is unchanged when validation errors or panics). -/
def DropTable (tables : List String) (names : List GoVal) : DropResult :=
  match dropTableCheck names tables with
  | CheckOutcome.panicked => DropResult.panicked tables
  | CheckOutcome.errored e => DropResult.errored e tables
  | CheckOutcome.ok =>
    DropResult.dropped (tables.filter (fun t => !names.contains (GoVal.str t)))

theorem rollbackAll_step_none {regs : List Migration} {st st' : List String}
    (h : rollbackLast regs st = (none, st')) :
    rollbackAllMigrations regs st = rollbackAllMigrations regs st' := by
  rw [rollbackAllMigrations]
  split
  · next st'' heq => rw [h] at heq; cases heq; rfl
  · next st'' heq => rw [h] at heq; cases heq
  · next e st'' hne heq => rw [h] at heq; cases heq

theorem rollbackAll_step_noRun {regs : List Migration} {st st' : List String}
    (h : rollbackLast regs st = (some MErr.noRunMigration, st')) :
    rollbackAllMigrations regs st = (none, st') := by
  rw [rollbackAllMigrations]
  split
  · next st'' heq => rw [h] at heq; cases heq
  · next st'' heq => rw [h] at heq; cases heq; rfl
  · next e st'' hne heq => rw [h] at heq; cases heq; exact (hne rfl).elim

theorem rollbackAll_step_err {regs : List Migration} {st st' : List String}
    {e : MErr} (hne : e ≠ MErr.noRunMigration)
    (h : rollbackLast regs st = (some e, st')) :
    rollbackAllMigrations regs st = (some e, st') := by
  rw [rollbackAllMigrations]
  split
  · next st'' heq => rw [h] at heq; cases heq
  · next st'' heq => rw [h] at heq; cases heq; exact absurd rfl hne
  · next e' st'' hne' heq => rw [h] at heq; cases heq; rfl

theorem rollbackLast_some_eq {regs : List Migration} {st st' : List String}
    {e : MErr} (h : rollbackLast regs st = (some e, st')) : st' = st := by
  unfold rollbackLast at h
  by_cases hu : hasUnknown st regs
  · simp [hu] at h; exact h.2.symm
  · simp [hu] at h
    cases hfind : lastApplied regs st with
    | none => simp [hfind] at h; exact h.2.symm
    | some m =>
      simp [hfind] at h
      by_cases hd : m.downOk
      · simp [hd] at h
      · simp [hd] at h; exact h.2.symm

theorem lastApplied_eq_none {regs : List Migration} {st : List String} :
    lastApplied regs st = none ↔ ∀ m ∈ regs, st.contains m.id = false := by
  unfold lastApplied
  rw [List.find?_eq_none]
  constructor
  · intro h m hm
    have := h m (List.mem_reverse.mpr hm)
    simpa using this
  · intro h m hm
    have := h m (List.mem_reverse.mp hm)
    simpa using this

theorem lastApplied_mem_regs {regs : List Migration} {st : List String}
    {m : Migration} (h : lastApplied regs st = some m) : m ∈ regs := by
  have : m ∈ regs.reverse := List.mem_of_find?_eq_some h
  exact List.mem_reverse.mp this

theorem hasUnknown_eq_false {regs : List Migration} {st : List String}
    (h : ∀ x ∈ st, x ∈ regIds regs) : hasUnknown st regs = false := by
  unfold hasUnknown
  rw [List.any_eq_false]
  intro x hx
  simp [h x hx]

theorem mem_foldl_dedup (rows : List String) :
    ∀ (acc : List String) (x : String),
      x ∈ rows.foldl (fun ids y => if ids.contains y then ids else ids ++ [y]) acc ↔
        x ∈ acc ∨ x ∈ rows := by
  induction rows with
  | nil => intro acc x; simp
  | cons r t ih =>
    intro acc x
    simp only [List.foldl_cons]
    by_cases hc : acc.contains r
    · rw [if_pos hc, ih]
      constructor
      · rintro (h | h)
        · exact Or.inl h
        · exact Or.inr (List.mem_cons_of_mem _ h)
      · rintro (h | h)
        · exact Or.inl h
        · rcases List.mem_cons.mp h with h1 | h1
          · subst h1; exact Or.inl (by simpa using hc)
          · exact Or.inr h1
    · rw [if_neg hc, ih]
      simp only [List.mem_append, List.mem_singleton, List.mem_cons]
      tauto

theorem migrateGo_all_up :
    ∀ (regs : List Migration) (st : List String),
      (regIds regs).Nodup → (∀ m ∈ regs, m.upOk = true) →
      migrateGo regs st =
        (none, st ++ (regs.filter (fun m => !st.contains m.id)).map Migration.id) := by
  intro regs
  induction regs with
  | nil => intro st _ _; simp [migrateGo]
  | cons m rest ih =>
    intro st hnd hup
    have hnd0 := List.nodup_cons.mp hnd
    have hnotin : m.id ∉ regIds rest := hnd0.1
    have hnd' : (regIds rest).Nodup := hnd0.2
    have hup' : ∀ m' ∈ rest, m'.upOk = true :=
      fun m' hm' => hup m' (List.mem_cons_of_mem _ hm')
    by_cases hc : st.contains m.id
    · have hc' : m.id ∈ st := by simpa using hc
      rw [migrateGo, if_pos hc, ih st hnd' hup']
      have : List.filter (fun m' => !st.contains m'.id) (m :: rest) =
          List.filter (fun m' => !st.contains m'.id) rest := by
        rw [List.filter_cons]
        simp [hc']
      rw [this]
    · have hc' : m.id ∉ st := by simpa using hc
      have hmup : m.upOk = true := hup m (List.mem_cons_self m rest)
      rw [migrateGo, if_neg (by simpa using hc'), if_pos hmup,
        ih (st ++ [m.id]) hnd' hup']
      have hfc : List.filter (fun m' => !(st ++ [m.id]).contains m'.id) rest =
          List.filter (fun m' => !st.contains m'.id) rest := by
        apply List.filter_congr
        intro m' hm'
        have hne : m'.id ≠ m.id := by
          intro he
          exact hnotin (he ▸ List.mem_map_of_mem Migration.id hm')
        simp [hne, hc']
      rw [hfc]
      have : List.filter (fun m' => !st.contains m'.id) (m :: rest) =
          m :: List.filter (fun m' => !st.contains m'.id) rest := by
        rw [List.filter_cons]
        simp [hc']
      rw [this]
      simp

theorem migrate_empty_eq (regs : List Migration)
    (hnd : (regIds regs).Nodup) (hup : ∀ m ∈ regs, m.upOk = true) :
    migrate regs [] = (none, regIds regs) := by
  unfold migrate
  rw [hasUnknown_eq_false (by simp)]
  simp only [Bool.false_eq_true, if_false]
  rw [migrateGo_all_up regs [] hnd hup]
  simp [regIds]

theorem rollbackLast_empty (regs : List Migration) :
    rollbackLast regs [] = (some MErr.noRunMigration, []) := by
  unfold rollbackLast
  rw [hasUnknown_eq_false (by simp)]
  simp only [Bool.false_eq_true, if_false]
  rw [lastApplied_eq_none.mpr (by intro m hm; simp)]

theorem rollbackAll_clears_aux (regs : List Migration)
    (hdown : ∀ m ∈ regs, m.downOk = true) :
    ∀ (n : Nat) (st : List String), st.length ≤ n →
      (∀ x ∈ st, x ∈ regIds regs) →
      rollbackAllMigrations regs st = (none, []) := by
  intro n
  induction n with
  | zero =>
    intro st hlen hsub
    have hst : st = [] := List.length_eq_zero.mp (Nat.le_zero.mp hlen)
    subst hst
    rw [rollbackAll_step_noRun (rollbackLast_empty regs)]
  | succ n ih =>
    intro st hlen hsub
    have hu := hasUnknown_eq_false hsub
    cases hfind : lastApplied regs st with
    | none =>
      have hst : st = [] := by
        rw [List.eq_nil_iff_forall_not_mem]
        intro x hx
        obtain ⟨m, hm, hid⟩ := List.mem_map.mp (hsub x hx)
        have := lastApplied_eq_none.mp hfind m hm
        rw [hid] at this
        simp at this
        exact this hx
      subst hst
      rw [rollbackAll_step_noRun (rollbackLast_empty regs)]
    | some m =>
      have hmdown := hdown m (lastApplied_mem_regs hfind)
      have h1 : rollbackLast regs st = (none, st.filter (fun x => x ≠ m.id)) := by
        unfold rollbackLast
        rw [hu]
        simp [hfind, hmdown]
      rw [rollbackAll_step_none h1]
      apply ih
      · have := filter_ne_length_lt (lastApplied_mem hfind)
        omega
      · intro x hx
        exact hsub x (List.mem_of_mem_filter hx)

theorem mem_getAppliedIDs {rows : List String} {x : String} :
    x ∈ getAppliedIDs true rows ↔ x ∈ rows := by
  unfold getAppliedIDs
  simp only [Bool.not_true, Bool.false_eq_true, if_false]
  rw [mem_foldl_dedup]
  simp

theorem migrateGo_extends :
    ∀ (regs : List Migration) (st : List String),
      ∃ news, (migrateGo regs st).2 = st ++ news ∧ ∀ x ∈ news, x ∉ st := by
  intro regs
  induction regs with
  | nil => intro st; exact ⟨[], by simp [migrateGo], by simp⟩
  | cons m rest ih =>
    intro st
    by_cases hc : st.contains m.id
    · obtain ⟨news, h1, h2⟩ := ih st
      exact ⟨news, by rw [migrateGo, if_pos hc]; exact h1, h2⟩
    · by_cases hm : m.upOk
      · obtain ⟨news, h1, h2⟩ := ih (st ++ [m.id])
        refine ⟨m.id :: news, ?_, ?_⟩
        · rw [migrateGo, if_neg hc, if_pos hm, h1]
          simp
        · intro x hx
          rcases List.mem_cons.mp hx with h3 | h3
          · subst h3
            simpa using hc
          · intro hxs
            exact h2 x h3 (List.mem_append_left _ hxs)
      · refine ⟨[], ?_, by simp⟩
        rw [migrateGo, if_neg hc, if_neg hm]
        simp

theorem migrate_extends {regs : List Migration} {st st' : List String}
    (h : migrate regs st = (none, st')) :
    ∃ news, st' = st ++ news ∧ ∀ x ∈ news, x ∉ st := by
  unfold migrate at h
  by_cases hu : hasUnknown st regs
  · simp [hu] at h
  · rw [if_neg hu] at h
    obtain ⟨news, h1, h2⟩ := migrateGo_extends regs st
    rw [h] at h1
    exact ⟨news, h1, h2⟩

theorem rollbackAll_loop_aux (regs : List Migration) :
    ∀ (n : Nat) (st : List String), st.length ≤ n →
      (∀ st', rollbackAllMigrations regs st = (none, st') →
        rollbackLast regs st' = (some MErr.noRunMigration, st')) ∧
      (∀ e st', rollbackAllMigrations regs st = (some e, st') →
        e ≠ MErr.noRunMigration ∧ rollbackLast regs st' = (some e, st')) := by
  intro n
  induction n with
  | zero =>
    intro st hlen
    have hst : st = [] := List.length_eq_zero.mp (Nat.le_zero.mp hlen)
    subst hst
    have hall : rollbackAllMigrations regs [] = (none, []) :=
      rollbackAll_step_noRun (rollbackLast_empty regs)
    constructor
    · intro st' h'
      rw [hall] at h'
      cases h'
      exact rollbackLast_empty regs
    · intro e st' h'
      rw [hall] at h'
      cases h'
  | succ n ih =>
    intro st hlen
    cases hrl : rollbackLast regs st with
    | mk e0 st1 =>
      cases e0 with
      | none =>
        have hstep := rollbackAll_step_none hrl
        have hlt : st1.length < st.length := rollbackLast_none_length hrl
        have := ih st1 (by omega)
        constructor
        · intro st' h'
          rw [hstep] at h'
          exact this.1 st' h'
        · intro e st' h'
          rw [hstep] at h'
          exact this.2 e st' h'
      | some e' =>
        have hst1 : st1 = st := rollbackLast_some_eq hrl
        subst hst1
        by_cases hne : e' = MErr.noRunMigration
        · subst hne
          have hstep := rollbackAll_step_noRun hrl
          constructor
          · intro st' h'
            rw [hstep] at h'
            cases h'
            exact hrl
          · intro e st' h'
            rw [hstep] at h'
            cases h'
        · have hstep := rollbackAll_step_err hne hrl
          constructor
          · intro st' h'
            rw [hstep] at h'
            cases h'
          · intro e st' h'
            rw [hstep] at h'
            cases h'
            exact ⟨hne, hrl⟩

theorem rollbackToGo_split :
    ∀ (b : List Migration) (t : Migration) (a : List Migration) (st : List String),
      (∀ m ∈ b, m.id ≠ t.id) → (regIds b).Nodup → (∀ m ∈ b, m.downOk = true) →
      rollbackToGo (b ++ t :: a) t.id st =
        (none, st.filter (fun x => !(regIds b).contains x),
         (b.filter (fun m => st.contains m.id)).map Migration.id) := by
  intro b
  induction b with
  | nil =>
    intro t a st _ _ _
    rw [List.nil_append, rollbackToGo, if_pos rfl]
    simp [regIds]
  | cons m b' ih =>
    intro t a st hb hnd hdown
    have hmne : m.id ≠ t.id := hb m (List.mem_cons_self _ _)
    have hb' : ∀ m' ∈ b', m'.id ≠ t.id := fun m' h => hb m' (List.mem_cons_of_mem _ h)
    have hnd0 := List.nodup_cons.mp hnd
    have hdown' : ∀ m' ∈ b', m'.downOk = true :=
      fun m' h => hdown m' (List.mem_cons_of_mem _ h)
    rw [List.cons_append, rollbackToGo, if_neg hmne]
    by_cases hc : st.contains m.id
    · have hc' : m.id ∈ st := by simpa using hc
      rw [if_pos hc, if_pos (hdown m (List.mem_cons_self _ _)),
        ih t a (st.filter (fun x => x ≠ m.id)) hb' hnd0.2 hdown']
      have h1 : List.filter (fun x => !(regIds b').contains x)
            (List.filter (fun x => x ≠ m.id) st) =
          List.filter (fun x => !(regIds (m :: b')).contains x) st := by
        rw [List.filter_filter]
        apply List.filter_congr
        intro x hx
        by_cases hxm : x = m.id
        · subst hxm
          simp [regIds]
        · simp [regIds, hxm]
      have hlog : List.filter
          (fun m' => (List.filter (fun x => x ≠ m.id) st).contains m'.id) b' =
          List.filter (fun m' => st.contains m'.id) b' := by
        apply List.filter_congr
        intro m' hm'
        have hne : m'.id ≠ m.id := by
          intro he
          exact hnd0.1 (he ▸ List.mem_map_of_mem Migration.id hm')
        by_cases hs : m'.id ∈ st
        · simp [List.mem_filter, hs, hne]
        · simp [List.mem_filter, hs]
      have h2 : List.filter (fun m' => st.contains m'.id) (m :: b') =
          m :: List.filter (fun m' => st.contains m'.id) b' := by
        rw [List.filter_cons, if_pos hc]
      simp only [h1, hlog, h2, List.map_cons]
    · have hc' : m.id ∉ st := by simpa using hc
      rw [if_neg hc, ih t a st hb' hnd0.2 hdown']
      have h1 : List.filter (fun x => !(regIds b').contains x) st =
          List.filter (fun x => !(regIds (m :: b')).contains x) st := by
        apply List.filter_congr
        intro x hx
        have hne : x ≠ m.id := fun he => hc' (he ▸ hx)
        simp [regIds, hne]
      have h2 : List.filter (fun m' => st.contains m'.id) (m :: b') =
          List.filter (fun m' => st.contains m'.id) b' := by
        rw [List.filter_cons, if_neg hc]
      rw [h1, h2]

theorem status_counts (applied : List String) :
    ∀ (regs : List Migration) (c : Nat × Nat),
      regs.foldl
          (fun (c : Nat × Nat) m =>
            if applied.contains m.id then (c.1 + 1, c.2) else (c.1, c.2 + 1)) c =
        (c.1 + (regs.filter (fun m => applied.contains m.id)).length,
         c.2 + (regs.filter (fun m => !applied.contains m.id)).length) := by
  intro regs
  induction regs with
  | nil => intro c; simp
  | cons m rest ih =>
    intro c
    by_cases hc : applied.contains m.id
    · rw [List.foldl_cons, if_pos hc, ih]
      have hf1 : List.filter (fun m => applied.contains m.id) (m :: rest) =
          m :: List.filter (fun m => applied.contains m.id) rest := by
        rw [List.filter_cons, if_pos hc]
      have hf2 : List.filter (fun m => !applied.contains m.id) (m :: rest) =
          List.filter (fun m => !applied.contains m.id) rest := by
        rw [List.filter_cons, if_neg (by simpa using hc)]
      rw [hf1, hf2]
      simp [Prod.ext_iff]
      omega
    · rw [List.foldl_cons, if_neg hc, ih]
      have hf1 : List.filter (fun m => applied.contains m.id) (m :: rest) =
          List.filter (fun m => applied.contains m.id) rest := by
        rw [List.filter_cons, if_neg hc]
      have hf2 : List.filter (fun m => !applied.contains m.id) (m :: rest) =
          m :: List.filter (fun m => !applied.contains m.id) rest := by
        rw [List.filter_cons, if_pos (by simpa using hc)]
      rw [hf1, hf2]
      simp [Prod.ext_iff]
      omega

/-- A name passed to `DropTable` is valid when it is a string naming an
existing table (the two checks of the validation loop; a nil name is not
valid — it panics rather than erroring). -/
def validTableName (tables : List String) : GoVal → Bool
  | GoVal.str s => tables.contains s
  | GoVal.nilVal => false
  | GoVal.other => false

theorem dropTableCheck_eq_ok :
    ∀ (names : List GoVal) (tables : List String),
      dropTableCheck names tables = CheckOutcome.ok ↔
        ∀ v ∈ names, validTableName tables v = true := by
  intro names
  induction names with
  | nil => intro tables; simp [dropTableCheck]
  | cons v rest ih =>
    intro tables
    cases v with
    | nilVal => simp [dropTableCheck, validTableName]
    | other => simp [dropTableCheck, validTableName]
    | str s =>
      by_cases hc : tables.contains s
      · have hc' : s ∈ tables := by simpa using hc
        simp [dropTableCheck, hc', validTableName, ih]
      · have hc' : s ∉ tables := by simpa using hc
        simp [dropTableCheck, hc', validTableName]

theorem dropTableCheck_no_nil_invalid :
    ∀ (names : List GoVal) (tables : List String),
      (∀ v ∈ names, v ≠ GoVal.nilVal) →
      (∃ v ∈ names, validTableName tables v = false) →
      ∃ e, dropTableCheck names tables = CheckOutcome.errored e := by
  intro names
  induction names with
  | nil =>
    intro tables _ h
    simp at h
  | cons v rest ih =>
    intro tables hnil hbad
    cases v with
    | nilVal => exact absurd rfl (hnil GoVal.nilVal (List.mem_cons_self _ _))
    | other => exact ⟨DropErr.notString, rfl⟩
    | str s =>
      by_cases hc : tables.contains s
      · have hbad' : ∃ v ∈ rest, validTableName tables v = false := by
          obtain ⟨v, hv, hvbad⟩ := hbad
          rcases List.mem_cons.mp hv with h1 | h1
          · subst h1
            simp [validTableName] at hvbad
            exact absurd (show s ∈ tables by simpa using hc) hvbad
          · exact ⟨v, h1, hvbad⟩
        obtain ⟨e, he⟩ :=
          ih tables (fun v hv => hnil v (List.mem_cons_of_mem _ hv)) hbad'
        refine ⟨e, ?_⟩
        simp only [dropTableCheck]
        rw [if_pos hc]
        exact he
      · refine ⟨DropErr.noTable s, ?_⟩
        simp only [dropTableCheck]
        rw [if_neg hc]

theorem dropTableCheck_nil_panics :
    ∀ (names : List GoVal) (tables : List String),
      GoVal.nilVal ∈ names →
      (∀ v ∈ names, v ≠ GoVal.nilVal → validTableName tables v = true) →
      dropTableCheck names tables = CheckOutcome.panicked := by
  intro names
  induction names with
  | nil =>
    intro tables h _
    simp at h
  | cons v rest ih =>
    intro tables hmem hval
    cases v with
    | nilVal => rfl
    | other =>
      have := hval GoVal.other (List.mem_cons_self _ _) (by intro h; cases h)
      simp [validTableName] at this
    | str s =>
      have hv := hval (GoVal.str s) (List.mem_cons_self _ _) (by intro h; cases h)
      have hc : tables.contains s = true := by
        simpa [validTableName] using hv
      have hmem' : GoVal.nilVal ∈ rest := by
        rcases List.mem_cons.mp hmem with h1 | h1
        · cases h1
        · exact h1
      simp only [dropTableCheck]
      rw [if_pos hc]
      exact ih tables hmem' (fun v hv' => hval v (List.mem_cons_of_mem _ hv'))

/-- C1: for every registry with distinct ids whose forward actions all
succeed, running `migrate()` against an empty History Store applies every
definition, and `appliedIds()` afterwards equals the set of all registry
ids. -/
theorem migrate_from_empty_applies_all (regs : List Migration)
    (hnd : (regIds regs).Nodup) (hup : ∀ m ∈ regs, m.upOk = true) :
    migrate regs [] = (none, regIds regs) ∧
      ∀ x, x ∈ getAppliedIDs true (migrate regs []).2 ↔ x ∈ regIds regs := by
  have h := migrate_empty_eq regs hnd hup
  refine ⟨h, ?_⟩
  intro x
  rw [h]
  exact mem_getAppliedIDs

theorem migrate_from_empty_applies_all_witness :
    migrate [⟨"A", true, true⟩, ⟨"B", true, true⟩] [] = (none, ["A", "B"]) ∧
      ("A" ∈ getAppliedIDs true
        (migrate [⟨"A", true, true⟩, ⟨"B", true, true⟩] []).2) := by
  have h := migrate_from_empty_applies_all
    [⟨"A", true, true⟩, ⟨"B", true, true⟩] (by decide) (by decide)
  exact ⟨h.1, (h.2 "A").mpr (by decide)⟩

/-- C2: for every registry with distinct ids whose forward and reverse
actions all succeed, migrate() from an empty store applies everything,
rollbackAll() then returns the store to empty, and a subsequent migrate()
from the emptied store reproduces the same applied state. -/
theorem migrate_rollbackAll_migrate_roundtrip (regs : List Migration)
    (hnd : (regIds regs).Nodup)
    (hup : ∀ m ∈ regs, m.upOk = true)
    (hdown : ∀ m ∈ regs, m.downOk = true) :
    migrate regs [] = (none, regIds regs) ∧
      rollbackAllMigrations regs (regIds regs) = (none, []) ∧
      migrate regs [] = (none, regIds regs) := by
  have h1 := migrate_empty_eq regs hnd hup
  have h2 := rollbackAll_clears_aux regs hdown (regIds regs).length (regIds regs)
    le_rfl (fun x hx => hx)
  exact ⟨h1, h2, h1⟩

theorem migrate_rollbackAll_migrate_roundtrip_witness :
    migrate [⟨"A", true, true⟩, ⟨"B", true, true⟩] [] = (none, ["A", "B"]) ∧
      rollbackAllMigrations [⟨"A", true, true⟩, ⟨"B", true, true⟩] ["A", "B"] =
        (none, []) ∧
      migrate [⟨"A", true, true⟩, ⟨"B", true, true⟩] [] = (none, ["A", "B"]) := by
  have h := migrate_rollbackAll_migrate_roundtrip
    [⟨"A", true, true⟩, ⟨"B", true, true⟩] (by decide) (by decide) (by decide)
  exact ⟨h.1, h.2.1, h.2.2⟩

/-- C4: whenever the History Store holds an id absent from the registry,
both migrate() and rollbackLast() fail with the unknown-applied-migration
error and leave the store unchanged (the error is raised by the strict
validation before any action runs). -/
theorem strict_validation_blocks (regs : List Migration) (st : List String)
    (h : hasUnknown st regs = true) :
    migrate regs st = (some MErr.unknownApplied, st) ∧
      rollbackLast regs st = (some MErr.unknownApplied, st) := by
  unfold migrate rollbackLast
  rw [h]
  simp

theorem strict_validation_blocks_witness :
    hasUnknown ["X"] [⟨"A", true, true⟩] = true ∧
      migrate [⟨"A", true, true⟩] ["X"] = (some MErr.unknownApplied, ["X"]) ∧
      rollbackLast [⟨"A", true, true⟩] ["X"] =
        (some MErr.unknownApplied, ["X"]) := by
  have h := strict_validation_blocks [⟨"A", true, true⟩] ["X"] (by decide)
  exact ⟨by decide, h.1, h.2⟩

/-- C6: appliedIds() never fails its caller: on a read error it returns
the empty set, and on a successful read it returns exactly the set of ids
stored in the migrations table. -/
theorem getAppliedIDs_soft_fail (rows : List String) :
    getAppliedIDs false rows = [] ∧
      ∀ x, x ∈ getAppliedIDs true rows ↔ x ∈ rows := by
  exact ⟨rfl, fun x => mem_getAppliedIDs⟩

/-- C10 as stated is false: a nil name is "not a string", yet DropTable
does not return the not-a-string error for it — `reflect.TypeOf(nil)` is
nil, so the `.Kind()` call at src/helper.go line 13 panics during
validation; the outcome is a panic, not an error return (the table list
is still unchanged, since the panic precedes any drop). -/
theorem dropTable_nil_panics_counterexample :
    DropTable ["t1"] [GoVal.nilVal] = DropResult.panicked ["t1"] ∧
      DropResult.panicked ["t1"] ≠
        DropResult.errored DropErr.notString ["t1"] := by
  decide

/-- C10 amended: all names are validated, in order, before any drop is
attempted, and the table list is unchanged unless every check passes:
when every name is a string naming an existing table, the named tables
are dropped; when no name is nil and some name fails a check, an error
is returned with the tables unchanged; a nil name (the names before it
passing their checks) causes a runtime panic during validation, again
with the tables unchanged. -/
theorem dropTable_validates_before_drop (tables : List String)
    (names : List GoVal) :
    ((∀ v ∈ names, validTableName tables v = true) →
        DropTable tables names =
          DropResult.dropped
            (tables.filter (fun t => !names.contains (GoVal.str t)))) ∧
      ((∀ v ∈ names, v ≠ GoVal.nilVal) →
        (∃ v ∈ names, validTableName tables v = false) →
        ∃ e, DropTable tables names = DropResult.errored e tables) ∧
      (GoVal.nilVal ∈ names →
        (∀ v ∈ names, v ≠ GoVal.nilVal → validTableName tables v = true) →
        DropTable tables names = DropResult.panicked tables) := by
  refine ⟨?_, ?_, ?_⟩
  · intro h
    unfold DropTable
    rw [(dropTableCheck_eq_ok names tables).mpr h]
  · intro hnil hbad
    obtain ⟨e, he⟩ := dropTableCheck_no_nil_invalid names tables hnil hbad
    refine ⟨e, ?_⟩
    unfold DropTable
    rw [he]
  · intro hmem hval
    unfold DropTable
    rw [dropTableCheck_nil_panics names tables hmem hval]

theorem dropTable_validates_before_drop_witness :
    DropTable ["t1", "t2"] [GoVal.str "t1"] = DropResult.dropped ["t2"] ∧
      (∃ e, DropTable ["t1", "t2"] [GoVal.str "t1", GoVal.other] =
        DropResult.errored e ["t1", "t2"]) ∧
      DropTable ["t1"] [GoVal.str "t1", GoVal.nilVal] =
        DropResult.panicked ["t1"] := by
  have h1 := (dropTable_validates_before_drop ["t1", "t2"] [GoVal.str "t1"]).1
    (by decide)
  have h2 := (dropTable_validates_before_drop ["t1", "t2"]
    [GoVal.str "t1", GoVal.other]).2.1 (by decide)
    ⟨GoVal.other, by decide, by decide⟩
  have h3 := (dropTable_validates_before_drop ["t1"]
    [GoVal.str "t1", GoVal.nilVal]).2.2 (by decide) (by decide)
  exact ⟨h1.trans (by decide), h2, h3⟩

/-- C5: rollbackAll() repeats rollbackLast(); it succeeds exactly when
rollbackLast() reports the no-applied-migration condition — in
particular rollbackLast() on an empty store yields that error — and any
other rollbackLast() error is returned to the caller. -/
theorem rollbackAll_terminates_on_noRun (regs : List Migration)
    (st : List String) :
    rollbackLast regs [] = (some MErr.noRunMigration, ([] : List String)) ∧
      (∀ st', rollbackAllMigrations regs st = (none, st') →
        rollbackLast regs st' = (some MErr.noRunMigration, st')) ∧
      (∀ e st', rollbackAllMigrations regs st = (some e, st') →
        e ≠ MErr.noRunMigration ∧ rollbackLast regs st' = (some e, st')) := by
  have h := rollbackAll_loop_aux regs st.length st le_rfl
  exact ⟨rollbackLast_empty regs, h.1, h.2⟩

theorem rollbackAll_terminates_on_noRun_witness :
    rollbackLast [⟨"A", true, true⟩] ([] : List String) =
      (some MErr.noRunMigration, []) := by
  have hrl : rollbackLast [⟨"A", true, true⟩] ["A"] = (none, ([] : List String)) := by
    decide
  have hall : rollbackAllMigrations [⟨"A", true, true⟩] ["A"] = (none, []) := by
    rw [rollbackAll_step_none hrl]
    exact rollbackAll_step_noRun (rollbackLast_empty _)
  exact (rollbackAll_terminates_on_noRun [⟨"A", true, true⟩] ["A"]).2.1 [] hall

/-- C7: findNewMigrations(before, after) is exactly the set difference
after minus before; the diff of a successful runMigrateWithDiff run is
empty precisely when the run applied no new migration, in which case the
report is "no change", and otherwise the reported id list is nonempty. -/
theorem findNewMigrations_diff (before after : List String)
    (regs : List Migration) (st : List String) :
    (∀ x, x ∈ findNewMigrations before after ↔ x ∈ after ∧ x ∉ before) ∧
      (findNewMigrations before after = [] ↔ ∀ x ∈ after, x ∈ before) ∧
      (∀ st' r, runMigrateWithDiff regs st = (none, st', some r) →
        ((r = Report.noChange ↔ st' = st) ∧
          ∀ ids, r = Report.newIds ids → ids ≠ [])) := by
  refine ⟨?_, ?_, ?_⟩
  · intro x
    simp [findNewMigrations, List.mem_filter]
  · rw [findNewMigrations, List.filter_eq_nil_iff]
    simp
  · intro st' r h
    unfold runMigrateWithDiff at h
    cases hm : migrate regs st with
    | mk e0 st1 =>
      rw [hm] at h
      cases e0 with
      | some e' => simp at h
      | none =>
        dsimp only at h
        obtain ⟨news, hst1, hdisj⟩ := migrate_extends hm
        by_cases hd : (findNewMigrations (getAppliedIDs true st)
            (getAppliedIDs true st1)).isEmpty
        · rw [if_pos hd] at h
          simp only [Prod.mk.injEq, Option.some.injEq] at h
          obtain ⟨-, hst', hr⟩ := h
          subst hst'
          subst hr
          have hdiffnil : findNewMigrations (getAppliedIDs true st)
              (getAppliedIDs true st1) = [] := List.isEmpty_iff.mp hd
          have hsubset : ∀ x ∈ st1, x ∈ st := by
            rw [findNewMigrations] at hdiffnil
            intro x hx
            have hx' : x ∈ getAppliedIDs true st1 := mem_getAppliedIDs.mpr hx
            have := List.filter_eq_nil_iff.mp hdiffnil x hx'
            simp at this
            exact mem_getAppliedIDs.mp this
          have hnews : news = [] := by
            rw [List.eq_nil_iff_forall_not_mem]
            intro y hy
            exact hdisj y hy
              (hsubset y (hst1 ▸ List.mem_append_right st hy))
          constructor
          · constructor
            · intro _
              rw [hst1, hnews, List.append_nil]
            · intro _
              rfl
          · intro ids hids
            cases hids
        · rw [if_neg hd] at h
          simp only [Prod.mk.injEq, Option.some.injEq] at h
          obtain ⟨-, hst', hr⟩ := h
          subst hst'
          subst hr
          constructor
          · constructor
            · intro hcon
              cases hcon
            · intro hst
              exfalso
              apply hd
              subst hst
              rw [List.isEmpty_iff, findNewMigrations, List.filter_eq_nil_iff]
              intro x hx
              simp [hx]
          · intro ids hids
            cases hids
            intro hnil
            exact hd (by rw [hnil]; rfl)

theorem findNewMigrations_diff_witness :
    ("B" ∈ findNewMigrations ["A"] ["A", "B"]) ∧
      (Report.newIds ["B"] = Report.noChange ↔
        (["A", "B"] : List String) = ["A"]) ∧
      (["B"] : List String) ≠ [] := by
  have h := findNewMigrations_diff ["A"] ["A", "B"]
    [⟨"A", true, true⟩, ⟨"B", true, true⟩] ["A"]
  have h3 := h.2.2 ["A", "B"] (Report.newIds ["B"]) rfl
  exact ⟨(h.1 "B").mpr (by decide), h3.1, h3.2 ["B"] rfl⟩

/-- C9: with the history table available and readable, the status report
is the single "up to date" line exactly when every registry entry is
applied and printing is not forced; otherwise it renders the Applied and
Pending groups, each listing its ids in registry order; an empty registry
(with printing not forced) always reports up to date. -/
theorem printMigrationStatus_spec (regs : List Migration)
    (rows : List String) (force : Bool) :
    (printMigrationStatus true true regs rows force = StatusReport.upToDate ↔
        ((∀ m ∈ regs, m.id ∈ getAppliedIDs true rows) ∧ force = false)) ∧
      (printMigrationStatus true true regs rows force ≠ StatusReport.upToDate →
        printMigrationStatus true true regs rows force =
          StatusReport.listing
            ((regs.filter
              (fun m => (getAppliedIDs true rows).contains m.id)).map Migration.id)
            ((regs.filter
              (fun m => !(getAppliedIDs true rows).contains m.id)).map Migration.id)) ∧
      (∀ rows', printMigrationStatus true true [] rows' false =
        StatusReport.upToDate) := by
  have hunfold : printMigrationStatus true true regs rows force =
      (if ((regs.filter (fun m => (getAppliedIDs true rows).contains m.id)).length
            = regs.length ∧
          (regs.filter (fun m => !(getAppliedIDs true rows).contains m.id)).length
            = 0 ∧ force = false) then
        StatusReport.upToDate
      else
        StatusReport.listing
          ((regs.filter
            (fun m => (getAppliedIDs true rows).contains m.id)).map Migration.id)
          ((regs.filter
            (fun m => !(getAppliedIDs true rows).contains m.id)).map Migration.id)) := by
    unfold printMigrationStatus
    dsimp only
    rw [status_counts (getAppliedIDs true rows) regs (0, 0)]
    simp only [Nat.zero_add, Bool.not_true, Bool.false_eq_true, if_false]
  have hall : ((regs.filter
        (fun m => (getAppliedIDs true rows).contains m.id)).length = regs.length) ↔
      ∀ m ∈ regs, m.id ∈ getAppliedIDs true rows := by
    rw [List.filter_length_eq_length]
    simp
  have hnone : ((regs.filter
        (fun m => !(getAppliedIDs true rows).contains m.id)).length = 0) ↔
      ∀ m ∈ regs, m.id ∈ getAppliedIDs true rows := by
    rw [List.length_eq_zero, List.filter_eq_nil_iff]
    simp
  refine ⟨?_, ?_, ?_⟩
  · rw [hunfold]
    by_cases hp : ∀ m ∈ regs, m.id ∈ getAppliedIDs true rows
    · by_cases hf : force = false
      · rw [if_pos ⟨hall.mpr hp, hnone.mpr hp, hf⟩]
        constructor
        · intro _
          exact ⟨hp, hf⟩
        · intro _
          rfl
      · rw [if_neg (by intro hcon; exact hf hcon.2.2)]
        constructor
        · intro hcon
          cases hcon
        · intro hcon
          exact absurd hcon.2 hf
    · rw [if_neg (by intro hcon; exact hp (hall.mp hcon.1))]
      constructor
      · intro hcon
        cases hcon
      · intro hcon
        exact absurd hcon.1 hp
  · intro hne
    rw [hunfold]
    rw [hunfold] at hne
    by_cases hcond : ((regs.filter
          (fun m => (getAppliedIDs true rows).contains m.id)).length = regs.length ∧
        (regs.filter
          (fun m => !(getAppliedIDs true rows).contains m.id)).length = 0 ∧
        force = false)
    · rw [if_pos hcond] at hne
      exact absurd rfl hne
    · rw [if_neg hcond]
  · intro rows'
    simp [printMigrationStatus]

theorem printMigrationStatus_spec_witness :
    printMigrationStatus true true [⟨"A", true, true⟩, ⟨"B", true, true⟩]
        ["A"] false = StatusReport.listing ["A"] ["B"] := by
  have h := (printMigrationStatus_spec [⟨"A", true, true⟩, ⟨"B", true, true⟩]
    ["A"] false).2.1 (by decide)
  exact h.trans (by decide)

/-- C3 as stated is false: with registry [A, B, C] and current applied
set {A, C} (B not applied), C is applied, yet rollbackTo("C") succeeds,
rolls nothing back, and leaves applied = {A, C} — not the full registry
prefix {A, B, C} up to and including C. -/
theorem rollbackTo_prefix_counterexample :
    rollbackTo [⟨"A", true, true⟩, ⟨"B", true, true⟩, ⟨"C", true, true⟩]
        "C" ["A", "C"] = (none, ["A", "C"], []) ∧
      "B" ∈ regIds [⟨"A", true, true⟩, ⟨"B", true, true⟩, ⟨"C", true, true⟩] ∧
      "B" ∉ (["A", "C"] : List String) := by
  decide

/-- C3 amended: for a registry pre ++ [x] ++ post with distinct ids, if x
is applied, every applied id is known, and the reverse actions of the
later migrations succeed, rollbackTo(x) removes exactly the applied ids
after x: the final applied set is the previously-applied ids within the
registry prefix up to and including x (so exactly that prefix whenever it
was fully applied), and the reverse actions invoked are exactly those of
the applied migrations after x, in reverse registry order. -/
theorem rollbackTo_applied_spec (pre post : List Migration) (t : Migration)
    (st : List String)
    (hnd : (regIds (pre ++ t :: post)).Nodup)
    (hdown : ∀ m ∈ post, m.downOk = true)
    (happ : t.id ∈ st)
    (hsub : ∀ x ∈ st, x ∈ regIds (pre ++ t :: post)) :
    rollbackTo (pre ++ t :: post) t.id st =
      (none,
       st.filter (fun x => (regIds (pre ++ [t])).contains x),
       ((post.reverse).filter (fun m => st.contains m.id)).map Migration.id) := by
  have hsplit : regIds (pre ++ t :: post) = regIds pre ++ regIds (t :: post) := by
    simp [regIds]
  have hnd2 : (regIds (t :: post)).Nodup := by
    rw [hsplit] at hnd
    exact hnd.of_append_right
  have htpost : t.id ∉ regIds post := (List.nodup_cons.mp hnd2).1
  have hndpost : (regIds post).Nodup := (List.nodup_cons.mp hnd2).2
  have hb : ∀ m ∈ post.reverse, m.id ≠ t.id := by
    intro m hm he
    apply htpost
    rw [← he]
    exact List.mem_map_of_mem Migration.id (List.mem_reverse.mp hm)
  have hndb : (regIds post.reverse).Nodup := by
    have hmapped : regIds post.reverse = (regIds post).reverse :=
      List.map_reverse _ _
    rw [hmapped, List.nodup_reverse]
    exact hndpost
  have hdownb : ∀ m ∈ post.reverse, m.downOk = true :=
    fun m hm => hdown m (List.mem_reverse.mp hm)
  have htin : t.id ∈ regIds (pre ++ t :: post) := by
    rw [hsplit]
    exact List.mem_append_right _ (by simp [regIds])
  unfold rollbackTo
  rw [if_neg (by simp [htin]), if_neg (by simp [happ])]
  have hrev : (pre ++ t :: post).reverse = post.reverse ++ t :: pre.reverse := by
    rw [List.reverse_append, List.reverse_cons]
    simp
  rw [hrev, rollbackToGo_split post.reverse t pre.reverse st hb hndb hdownb]
  have hdisj : List.Disjoint (regIds pre) (regIds (t :: post)) := by
    rw [hsplit] at hnd
    exact List.disjoint_of_nodup_append hnd
  have hfilter : List.filter (fun x => !(regIds post.reverse).contains x) st =
      List.filter (fun x => (regIds (pre ++ [t])).contains x) st := by
    apply List.filter_congr
    intro x hx
    have hxall : x ∈ regIds pre ++ regIds (t :: post) := by
      rw [← hsplit]
      exact hsub x hx
    have hmapped : regIds post.reverse = (regIds post).reverse :=
      List.map_reverse _ _
    have hpret : regIds (pre ++ [t]) = regIds pre ++ [t.id] := by
      simp [regIds]
    by_cases hxpost : x ∈ regIds post
    · have hxpre : x ∉ regIds pre := by
        intro hp
        exact hdisj hp (List.mem_cons_of_mem _ hxpost)
      have hxt : x ≠ t.id := by
        intro he
        exact htpost (he ▸ hxpost)
      simp [hmapped, hpret, hxpost, hxpre, hxt]
    · have hxor : x ∈ regIds pre ∨ x = t.id := by
        rcases List.mem_append.mp hxall with h | h
        · exact Or.inl h
        · rcases List.mem_cons.mp h with h | h
          · exact Or.inr h
          · exact absurd h hxpost
      rcases hxor with h | h
      · simp [hmapped, hpret, hxpost, h]
      · simp [hmapped, hpret, hxpost, h, htpost]
  rw [hfilter]

theorem rollbackTo_applied_spec_witness :
    rollbackTo [⟨"A", true, true⟩, ⟨"B", true, true⟩, ⟨"C", true, true⟩]
        "A" ["A", "B", "C"] = (none, ["A"], ["C", "B"]) := by
  have h := rollbackTo_applied_spec []
    [⟨"B", true, true⟩, ⟨"C", true, true⟩] ⟨"A", true, true⟩
    ["A", "B", "C"] (by decide) (by decide) (by decide) (by decide)
  exact h.trans (by decide)

end Gormeasy
